import Mathlib

/-
Shallow embedding of the td4-Decentralization onion-routing network.

Sources embedded:
- src/src/crypto.ts: base64 utilities, RSA-OAEP and AES-CBC wrappers
  (the webcrypto primitives themselves are modelled symbolically, see below);
- src/unnamed/part_000: the user process, in particular the /sendMessage
  handler (circuit building and onion wrapping);
- src/unnamed/part_002: the onion router process, in particular the
  /message handler (peel one layer and forward);
- src/unnamed/part_003: the registry process (registerNode, getNodeRegistry).

Modelling conventions:
- JS strings are List Char; TS numbers are Nat (ports, node ids).
- Bytes are Nat; byte buffers are List Nat.
- The webcrypto primitives (RSA-OAEP with a 2048-bit modulus, AES-CBC) are
  external library calls, not code of this repository; they are modelled as
  symbolic invertible transformations that preserve the structural facts the
  repository relies on: an RSA-OAEP-2048 ciphertext is exactly 256 bytes
  whatever the (short) plaintext, AES-CBC takes a 16-byte IV, and decryption
  inverts encryption under the matching key.  An RSA key pair is modelled by
  a single Nat seed shared by both halves, so importPubKey, importPrvKey,
  exportPubKey and exportPrvKey are the identity on that seed.
- Randomness (Math.random draws, fresh symmetric keys, fresh IVs) is
  modelled by explicit arguments: a list of sampled indices for the circuit
  loop and a per-hop (key, iv) entropy list for the wrap loop.
- An Express handler that throws is modelled by Except/Option: the thrown
  error is the error/none case, and a handler that throws sends nothing.
-/

/-- Modelled from the spec: src/config.ts is not among the provided sources.
The spec's reference configuration addresses user u at port 3000 + u (its
example destination port is 3001) and keeps onion-router ports in a band of
their own above the user base. -/
def BASE_USER_PORT : Nat := 3000

/-- Modelled from the spec: onion-router base port of the reference
configuration; router n listens at 4000 + n (src/config.ts is not among the
provided sources). -/
def BASE_ONION_ROUTER_PORT : Nat := 4000

/-- Modelled from the spec: the registry port (not used by any claim). -/
def REGISTRY_PORT : Nat := 8080

/-- Alphabet of standard base64, as used by Buffer in src/src/crypto.ts. -/
def base64Chars : List Char :=
  "ABCDEFGHIJKLMNOPQRSTUVWXYZabcdefghijklmnopqrstuvwxyz0123456789+/".data

/-- Character encoding one 6-bit group of a base64 encoding. -/
def base64Char (v : Nat) : Char := base64Chars.getD v 'A'

/-- Numeric value of one base64 character (inverse alphabet lookup). -/
def base64CharVal (c : Char) : Nat :=
  if 'A' ≤ c ∧ c ≤ 'Z' then c.toNat - 65
  else if 'a' ≤ c ∧ c ≤ 'z' then c.toNat - 97 + 26
  else if '0' ≤ c ∧ c ≤ '9' then c.toNat - 48 + 52
  else if c = '+' then 62
  else if c = '/' then 63
  else 0

/-- Base64 encoding of a byte list, with trailing padding characters; this
is what Buffer.toString with the base64 codec produces inside
arrayBufferToBase64 (src/src/crypto.ts). -/
def base64EncodeBytes : List Nat → List Char
  | [] => []
  | [b0] =>
    [base64Char (b0 / 4), base64Char (b0 % 4 * 16), '=', '=']
  | [b0, b1] =>
    [base64Char (b0 / 4), base64Char (b0 % 4 * 16 + b1 / 16),
     base64Char (b1 % 16 * 4), '=']
  | b0 :: b1 :: b2 :: rest =>
    base64Char (b0 / 4) :: base64Char (b0 % 4 * 16 + b1 / 16) ::
    base64Char (b1 % 16 * 4 + b2 / 64) :: base64Char (b2 % 64) ::
    base64EncodeBytes rest

/-- Base64 decoding of a character list back to bytes; this is what
Buffer.from with the base64 codec does inside base64ToArrayBuffer
(src/src/crypto.ts). -/
def base64DecodeChars : List Char → List Nat
  | c0 :: c1 :: c2 :: c3 :: rest =>
    if c2 = '=' then
      [base64CharVal c0 * 4 + base64CharVal c1 / 16]
    else if c3 = '=' then
      [base64CharVal c0 * 4 + base64CharVal c1 / 16,
       base64CharVal c1 % 16 * 16 + base64CharVal c2 / 4]
    else
      (base64CharVal c0 * 4 + base64CharVal c1 / 16) ::
      (base64CharVal c1 % 16 * 16 + base64CharVal c2 / 4) ::
      (base64CharVal c2 % 4 * 64 + base64CharVal c3) ::
      base64DecodeChars rest
  | _ => []

/-- Embeds arrayBufferToBase64 (src/src/crypto.ts). -/
def arrayBufferToBase64 (buffer : List Nat) : List Char := base64EncodeBytes buffer

/-- Embeds base64ToArrayBuffer (src/src/crypto.ts). -/
def base64ToArrayBuffer (base64 : List Char) : List Nat := base64DecodeChars base64

/-- UTF-8 byte encoding of one character (model of TextEncoder). -/
def utf8EncodeChar (c : Char) : List Nat :=
  let n := c.toNat
  if n < 128 then [n]
  else if n < 2048 then [192 + n / 64, 128 + n % 64]
  else if n < 65536 then [224 + n / 4096, 128 + n / 64 % 64, 128 + n % 64]
  else [240 + n / 262144, 128 + n / 4096 % 64, 128 + n / 64 % 64, 128 + n % 64]

/-- Model of the TextEncoder encode call in symEncrypt (src/src/crypto.ts):
the UTF-8 bytes of a string. -/
def textEncode (s : List Char) : List Nat := (s.map utf8EncodeChar).flatten

/-- Fuel-indexed UTF-8 parsing, structurally recursive on the fuel so that
the kernel can evaluate it; a fuel of at least the byte count suffices.  The
lead byte selects how many continuation bytes are consumed; missing
continuation bytes default to 0 (the model decoder is permissive about
malformed input; on the well-formed output of textEncode it agrees with the
real decoder). -/
def utf8DecodeAux : Nat → List Nat → List Char
  | 0, _ => []
  | _ + 1, [] => []
  | fuel + 1, b0 :: rest =>
    if b0 < 128 then Char.ofNat b0 :: utf8DecodeAux fuel rest
    else if b0 < 224 then
      Char.ofNat ((b0 - 192) * 64 + (rest.headD 0 - 128)) :: utf8DecodeAux fuel rest.tail
    else if b0 < 240 then
      Char.ofNat ((b0 - 224) * 4096 + (rest.headD 0 - 128) * 64 + (rest.tail.headD 0 - 128)) ::
        utf8DecodeAux fuel rest.tail.tail
    else
      Char.ofNat ((b0 - 240) * 262144 + (rest.headD 0 - 128) * 4096 +
          (rest.tail.headD 0 - 128) * 64 + (rest.tail.tail.headD 0 - 128)) ::
        utf8DecodeAux fuel rest.tail.tail.tail

/-- Model of the TextDecoder decode call in symDecrypt (src/src/crypto.ts):
parse UTF-8 byte groups back to characters. -/
def utf8Decode (bytes : List Nat) : List Char := utf8DecodeAux bytes.length bytes

/-- Keystream byte of the modelled block cipher.  AES-CBC is an external
webcrypto primitive; it is modelled as a byte-wise xor with a value derived
from the key bytes and the IV, which preserves exactly what the repository
relies on: encryption under a (key, iv) pair is inverted by decryption under
the same pair. -/
def aesKeystream (key iv : List Nat) : Nat :=
  key.foldl Nat.xor 0 ^^^ iv.foldl Nat.xor 0

/-- Model of the webcrypto AES-CBC encrypt call in symEncrypt. -/
def aesCbcEncrypt (key iv data : List Nat) : List Nat :=
  data.map (fun b => b ^^^ aesKeystream key iv)

/-- Model of the webcrypto AES-CBC decrypt call in symDecrypt. -/
def aesCbcDecrypt (key iv data : List Nat) : List Nat :=
  data.map (fun b => b ^^^ aesKeystream key iv)

/-- Embeds exportSymKey (src/src/crypto.ts): raw key bytes, base64. -/
def exportSymKey (key : List Nat) : List Char := arrayBufferToBase64 key

/-- Embeds importSymKey (src/src/crypto.ts). -/
def importSymKey (strKey : List Char) : List Nat := base64ToArrayBuffer strKey

/-- Embeds symEncrypt (src/src/crypto.ts): UTF-8 encode the data, encrypt it
under the key with a fresh 16-byte IV, prepend the IV to the ciphertext and
base64 the combined buffer.  The random IV the source draws from
webcrypto.getRandomValues is an explicit argument. -/
def symEncrypt (key : List Nat) (iv : List Nat) (data : List Char) : List Char :=
  let encodedData := textEncode data
  let encrypted := aesCbcEncrypt key iv encodedData
  let combined := iv ++ encrypted
  arrayBufferToBase64 combined

/-- Embeds symDecrypt (src/src/crypto.ts): import the key, split the IV off
at byte 16, decrypt the remaining bytes and decode them to a string. -/
def symDecrypt (strKey : List Char) (encryptedData : List Char) : List Char :=
  let key := importSymKey strKey
  let combined := base64ToArrayBuffer encryptedData
  let iv := combined.take 16
  let data := combined.drop 16
  let decrypted := aesCbcDecrypt key iv data
  utf8Decode decrypted

/-- Model of the webcrypto RSA-OAEP encrypt call with a 2048-bit modulus:
the ciphertext is always exactly 256 bytes whatever the (at most 190-byte)
plaintext.  The model records the plaintext length, pads to 256 bytes and
mixes the key in; the leading marker byte is what makes decryption under a
mismatched key fail, as OAEP decoding does. -/
def rsaOaepEncrypt (pubKey : Nat) (data : List Nat) : List Nat :=
  (79 :: data.length % 256 :: (data ++ List.replicate (254 - data.length) 0)).map
    (fun b => b ^^^ pubKey % 256)

/-- Model of the webcrypto RSA-OAEP decrypt call: undo the key mixing, check
the OAEP marker and recover the recorded plaintext; none models the
exception the subtle decrypt call throws when decoding fails. -/
def rsaOaepDecrypt (prvKey : Nat) (ct : List Nat) : Option (List Nat) :=
  match ct.map (fun b => b ^^^ prvKey % 256) with
  | marker :: len :: rest =>
    if marker = 79 ∧ rest.length = 254 then some (rest.take len) else none
  | _ => none

/-- Embeds rsaEncrypt (src/src/crypto.ts): decode the base64 payload,
encrypt it under the imported public key, re-encode the ciphertext.
importPubKey is the identity on the modelled key seed. -/
def rsaEncrypt (b64Data : List Char) (strPublicKey : Nat) : List Char :=
  arrayBufferToBase64 (rsaOaepEncrypt strPublicKey (base64ToArrayBuffer b64Data))

/-- Embeds rsaDecrypt (src/src/crypto.ts); none models the propagated
webcrypto exception. -/
def rsaDecrypt (data : List Char) (privateKey : Nat) : Option (List Char) :=
  (rsaOaepDecrypt privateKey (base64ToArrayBuffer data)).map arrayBufferToBase64

/-- Embeds validateEncryption (src/src/crypto.ts): try to RSA-decrypt and
compare with the expected plaintext; the catch-all returns false instead of
propagating the exception.  importPrvKey is the identity on the modelled key
seed. -/
def validateEncryption (encryptedMessage : List Char) (decryptedMessage : List Char)
    (privateKey : Nat) : Bool :=
  match rsaDecrypt encryptedMessage privateKey with
  | some decrypted => decrypted == decryptedMessage
  | none => false

/-- Fuel-indexed digit production, structurally recursive so that the
kernel can evaluate it; fuel n + 1 always suffices for the number n. -/
def natDigitsAux : Nat → Nat → List Char
  | 0, _ => []
  | fuel + 1, n =>
    if n < 10 then [Char.ofNat (48 + n)]
    else natDigitsAux fuel (n / 10) ++ [Char.ofNat (48 + n % 10)]

/-- Decimal digit characters of a Nat; models the JS number-to-string
conversion inside template literals. -/
def natDigits (n : Nat) : List Char := natDigitsAux (n + 1) n

/-- Model of parseInt with radix 10 on the all-digit strings the protocol
produces (src/unnamed/part_002 applies it to the sliced destination field). -/
def parseInt10 (s : List Char) : Nat :=
  s.foldl (fun acc c => acc * 10 + (c.toNat - 48)) 0

/-- Embeds the Node record type (src/unnamed/part_003 and part_000); the
public key is the modelled Nat seed. -/
structure Node where
  nodeId : Nat
  pubKey : Nat
  deriving DecidableEq, Repr

/-- Embeds the /registerNode handler (src/unnamed/part_003): an
unconditional push of the posted record onto the nodes array. -/
def registerNode (nodes : List Node) (n : Node) : List Node := nodes ++ [n]

/-- Embeds the /getNodeRegistry handler (src/unnamed/part_003). -/
def getNodeRegistry (nodes : List Node) : List Node := nodes

/-- Embeds the circuit-building while loop of the /sendMessage handler
(src/unnamed/part_000): draw a node at each sampled index until three
distinct node ids have been collected.  randoms is the explicit stream of
Math.floor of Math.random times nodes.length draws; none models a loop that
is still running when the stream is exhausted, or that crashed indexing an
empty pool. -/
def buildCircuit (nodes : List Node) : List Nat → List Nat → Option (List Nat)
  | [], circuit => if circuit.length < 3 then none else some circuit
  | r :: rs, circuit =>
    if circuit.length < 3 then
      match nodes[r]? with
      | none => none
      | some randomNode =>
        buildCircuit nodes rs
          (if circuit.contains randomNode.nodeId then circuit
           else circuit ++ [randomNode.nodeId])
    else some circuit

/-- Destination field built by the wrap loop (src/unnamed/part_000): the
template literal prepends six zero characters to the decimal port. -/
def destinationString (port : Nat) : List Char :=
  '0' :: '0' :: '0' :: '0' :: '0' :: '0' :: natDigits port

/-- Per-hop (nodeId, destination port) pairs of the wrap loop
(src/unnamed/part_000): hop i is addressed to the next relay's router port,
and the last hop to the destination user's port. -/
def mkHopList : List Nat → Nat → List (Nat × Nat)
  | [], _ => []
  | [c], destinationUserId => [(c, BASE_USER_PORT + destinationUserId)]
  | c :: c2 :: rest, destinationUserId =>
    (c, BASE_ONION_ROUTER_PORT + c2) :: mkHopList (c2 :: rest) destinationUserId

/-- Embeds the wrap loop of the /sendMessage handler (src/unnamed/part_000),
which iterates the circuit from the last hop to the first: look the hop up
in the registry snapshot, frame the current payload behind its destination
field, encrypt under a fresh symmetric key and prepend the RSA-wrapped key.
Each hop is paired with its fresh (symmetric key, IV) entropy; the error
case is the thrown lookup failure. -/
def wrapHops (nodes : List Node) :
    List ((Nat × Nat) × List Nat × List Nat) → List Char → Except String (List Char)
  | [], msg => .ok msg
  | ((hopId, dest), symKey, iv) :: rest, msg =>
    match wrapHops nodes rest msg with
    | .error e => .error e
    | .ok current =>
      match nodes.find? (fun n => n.nodeId == hopId) with
      | none => .error ("Node " ++ (natDigits hopId).asString ++ " not found in the registry")
      | some node =>
        let messageToEncrypt := destinationString dest ++ current
        let encryptedMessage := symEncrypt symKey iv messageToEncrypt
        let encryptedSymmetricKey := rsaEncrypt (exportSymKey symKey) node.pubKey
        .ok (encryptedSymmetricKey ++ encryptedMessage)

/-- Embeds the tail of the /sendMessage handler (src/unnamed/part_000) once
a circuit is fixed: wrap through every hop and deliver the wire message to
the entry node's router port.  The returned pair is the (port, body) handed
to Transport; an error means nothing is delivered. -/
def sendWithCircuit (nodes : List Node) (circuit : List Nat)
    (entropy : List (List Nat × List Nat)) (message : List Char)
    (destinationUserId : Nat) : Except String (Nat × List Char) :=
  (wrapHops nodes ((mkHopList circuit destinationUserId).zip entropy) message).map
    (fun encryptedMessage => (BASE_ONION_ROUTER_PORT + circuit.headD 0, encryptedMessage))

/-- Embeds the whole /sendMessage handler (src/unnamed/part_000): build the
circuit from the sampled index stream, then wrap and deliver; the outer none
models the circuit loop never finishing. -/
def sendMessage (nodes : List Node) (randoms : List Nat)
    (entropy : List (List Nat × List Nat)) (message : List Char)
    (destinationUserId : Nat) : Option (Except String (Nat × List Char)) :=
  (buildCircuit nodes randoms []).map
    (fun circuit => sendWithCircuit nodes circuit entropy message destinationUserId)

/-- Embeds the /message handler of the onion router (src/unnamed/part_002):
slice the wire message at character 344, RSA-decrypt the wrapped symmetric
key with the router's own private key, symmetrically decrypt the rest, slice
the decrypted string at character 10 into destination field and remainder,
parse the destination and forward.  The returned pair is the (port, body)
forwarded over Transport; none models the handler dying on a decryption
error, in which case nothing is forwarded. -/
def routerHandleMessage (prvKey : Nat) (message : List Char) : Option (Nat × List Char) :=
  let encryptedSymmetricKey := message.take 344
  let encryptedMessage := message.drop 344
  match rsaDecrypt encryptedSymmetricKey prvKey with
  | none => none
  | some symmetricKeyBase64 =>
    let decryptedMessage := symDecrypt symmetricKeyBase64 encryptedMessage
    let destination := decryptedMessage.take 10
    let remainingMessage := decryptedMessage.drop 10
    let nextDestination := parseInt10 destination
    if BASE_USER_PORT ≤ nextDestination then
      some (nextDestination, remainingMessage)
    else
      some (nextDestination, destination ++ remainingMessage)

/-- Sequential peeling: feed each forwarded body to the next relay's
/message handler, in path order, each relay using its own private key. -/
def peelSeq : List Nat → Nat × List Char → Option (Nat × List Char)
  | [], pm => some pm
  | prvKey :: rest, pm =>
    match routerHandleMessage prvKey pm.2 with
    | none => none
    | some next => peelSeq rest next

/-- Induction principle following the 3-byte grouping of the base64 codec. -/
theorem list3induct (P : List Nat → Prop) (h0 : P []) (h1 : ∀ b0, P [b0])
    (h2 : ∀ b0 b1, P [b0, b1])
    (h3 : ∀ b0 b1 b2 rest, P rest → P (b0 :: b1 :: b2 :: rest)) : ∀ l, P l
  | [] => h0
  | [b0] => h1 b0
  | [b0, b1] => h2 b0 b1
  | b0 :: b1 :: b2 :: rest => h3 b0 b1 b2 rest (list3induct P h0 h1 h2 h3 rest)

/-- Value of the alphabet character of any 6-bit group. -/
theorem base64CharVal_base64Char : ∀ v, v < 64 → base64CharVal (base64Char v) = v := by
  decide

/-- Alphabet characters are never the padding character. -/
theorem base64Char_ne_pad : ∀ v, v < 64 → base64Char v ≠ '=' := by
  decide

/-- Base64 decoding inverts base64 encoding on byte lists. -/
theorem base64_decode_encode :
    ∀ l, (∀ b ∈ l, b < 256) → base64DecodeChars (base64EncodeBytes l) = l := by
  refine list3induct _ ?_ ?_ ?_ ?_
  · intro _; rfl
  · intro b0 hb
    have h0 : b0 < 256 := hb b0 (by simp)
    have e0 := base64CharVal_base64Char (b0 / 4) (by omega)
    have e1 := base64CharVal_base64Char (b0 % 4 * 16) (by omega)
    simp only [base64EncodeBytes, base64DecodeChars, e0, e1]
    simp
    all_goals omega
  · intro b0 b1 hb
    have h0 : b0 < 256 := hb b0 (by simp)
    have h1 : b1 < 256 := hb b1 (by simp)
    have e0 := base64CharVal_base64Char (b0 / 4) (by omega)
    have e1 := base64CharVal_base64Char (b0 % 4 * 16 + b1 / 16) (by omega)
    have e2 := base64CharVal_base64Char (b1 % 16 * 4) (by omega)
    have n2 := base64Char_ne_pad (b1 % 16 * 4) (by omega)
    simp only [base64EncodeBytes, base64DecodeChars, if_neg n2, e0, e1, e2]
    simp
    constructor
    all_goals omega
  · intro b0 b1 b2 rest ih hb
    have h0 : b0 < 256 := hb b0 (by simp)
    have h1 : b1 < 256 := hb b1 (by simp)
    have h2 : b2 < 256 := hb b2 (by simp)
    have e0 := base64CharVal_base64Char (b0 / 4) (by omega)
    have e1 := base64CharVal_base64Char (b0 % 4 * 16 + b1 / 16) (by omega)
    have e2 := base64CharVal_base64Char (b1 % 16 * 4 + b2 / 64) (by omega)
    have e3 := base64CharVal_base64Char (b2 % 64) (by omega)
    have n2 := base64Char_ne_pad (b1 % 16 * 4 + b2 / 64) (by omega)
    have n3 := base64Char_ne_pad (b2 % 64) (by omega)
    have htail : ∀ b ∈ rest, b < 256 := fun b h => hb b (by simp [h])
    simp only [base64EncodeBytes, base64DecodeChars, if_neg n2, if_neg n3, e0, e1, e2, e3,
      ih htail]
    simp
    refine ⟨?_, ?_, ?_⟩
    all_goals omega

/-- Length of a base64 encoding: four characters per started 3-byte group. -/
theorem base64_length : ∀ l : List Nat, (base64EncodeBytes l).length = 4 * ((l.length + 2) / 3) := by
  refine list3induct _ ?_ ?_ ?_ ?_
  · rfl
  · intro b0; simp [base64EncodeBytes]
  · intro b0 b1; simp [base64EncodeBytes]
  · intro b0 b1 b2 rest ih
    simp only [base64EncodeBytes, List.length_cons, ih]
    omega

/-- Every character code point is below the Unicode bound. -/
theorem char_toNat_lt (c : Char) : c.toNat < 1114112 := by
  have h := c.valid
  simp [UInt32.isValidChar, Nat.isValidChar] at h
  have hv : c.toNat = c.val.toNat := rfl
  omega

/-- UTF-8 encodings consist of bytes. -/
theorem utf8EncodeChar_lt (c : Char) : ∀ b ∈ utf8EncodeChar c, b < 256 := by
  have hc := char_toNat_lt c
  intro b hb
  by_cases h1 : c.toNat < 128
  · simp only [utf8EncodeChar, if_pos h1] at hb
    simp at hb; omega
  · by_cases h2 : c.toNat < 2048
    · simp only [utf8EncodeChar, if_neg h1, if_pos h2] at hb
      simp at hb; rcases hb with rfl | rfl <;> omega
    · by_cases h3 : c.toNat < 65536
      · simp only [utf8EncodeChar, if_neg h1, if_neg h2, if_pos h3] at hb
        simp at hb; rcases hb with rfl | rfl | rfl <;> omega
      · simp only [utf8EncodeChar, if_neg h1, if_neg h2, if_neg h3] at hb
        simp at hb; rcases hb with rfl | rfl | rfl | rfl <;> omega

/-- The UTF-8 encoding of a string consists of bytes. -/
theorem textEncode_lt (s : List Char) : ∀ b ∈ textEncode s, b < 256 := by
  intro b hb
  simp only [textEncode, List.mem_flatten] at hb
  rcases hb with ⟨l, hl, hbl⟩
  simp only [List.mem_map] at hl
  rcases hl with ⟨c, _, rfl⟩
  exact utf8EncodeChar_lt c b hbl

/-- The fuel-indexed decoder returns nothing on an empty buffer. -/
theorem utf8DecodeAux_nil : ∀ fuel, utf8DecodeAux fuel [] = [] := by
  intro fuel
  cases fuel <;> rfl

/-- The fuel is irrelevant as long as it covers the byte count. -/
theorem utf8DecodeAux_fuel : ∀ f1 f2 bytes, bytes.length ≤ f1 → bytes.length ≤ f2 →
    utf8DecodeAux f1 bytes = utf8DecodeAux f2 bytes := by
  intro f1
  induction f1 with
  | zero =>
    intro f2 bytes h1 _
    have hb : bytes = [] := List.eq_nil_of_length_eq_zero (by omega)
    subst hb
    rw [utf8DecodeAux_nil, utf8DecodeAux_nil]
  | succ f ih =>
    intro f2 bytes h1 h2
    match bytes with
    | [] => rw [utf8DecodeAux_nil, utf8DecodeAux_nil]
    | b0 :: rest =>
      cases f2 with
      | zero => simp at h2
      | succ f2 =>
        simp only [List.length_cons] at h1 h2
        have hr1 : rest.length ≤ f := by omega
        have hr2 : rest.length ≤ f2 := by omega
        have htail : rest.tail.length = rest.length - 1 := by simp
        have htail2 : rest.tail.tail.length = rest.length - 2 := by simp; omega
        have htail3 : rest.tail.tail.tail.length = rest.length - 3 := by simp; omega
        simp only [utf8DecodeAux]
        by_cases hb1 : b0 < 128
        · simp only [if_pos hb1]
          rw [ih f2 rest hr1 hr2]
        · by_cases hb2 : b0 < 224
          · simp only [if_neg hb1, if_pos hb2]
            rw [ih f2 rest.tail (by omega) (by omega)]
          · by_cases hb3 : b0 < 240
            · simp only [if_neg hb1, if_neg hb2, if_pos hb3]
              rw [ih f2 rest.tail.tail (by omega) (by omega)]
            · simp only [if_neg hb1, if_neg hb2, if_neg hb3]
              rw [ih f2 rest.tail.tail.tail (by omega) (by omega)]

/-- Decoder shape on a 1-byte head. -/
theorem utf8Decode_one (b0 : Nat) (bs : List Nat) (h : b0 < 128) :
    utf8Decode (b0 :: bs) = Char.ofNat b0 :: utf8Decode bs := by
  simp only [utf8Decode, List.length_cons, utf8DecodeAux, if_pos h]

/-- Decoder shape on a 2-byte head. -/
theorem utf8Decode_two (b0 b1 : Nat) (bs : List Nat) (h1 : ¬ b0 < 128) (h2 : b0 < 224) :
    utf8Decode (b0 :: b1 :: bs) =
      Char.ofNat ((b0 - 192) * 64 + (b1 - 128)) :: utf8Decode bs := by
  have hf := utf8DecodeAux_fuel (bs.length + 1) bs.length bs (by omega) (by omega)
  simp only [utf8Decode, List.length_cons, utf8DecodeAux, if_neg h1, if_pos h2,
    List.headD_cons, List.tail_cons, hf]

/-- Decoder shape on a 3-byte head. -/
theorem utf8Decode_three (b0 b1 b2 : Nat) (bs : List Nat) (h1 : ¬ b0 < 128)
    (h2 : ¬ b0 < 224) (h3 : b0 < 240) :
    utf8Decode (b0 :: b1 :: b2 :: bs) =
      Char.ofNat ((b0 - 224) * 4096 + (b1 - 128) * 64 + (b2 - 128)) :: utf8Decode bs := by
  have hf := utf8DecodeAux_fuel (bs.length + 2) bs.length bs (by omega) (by omega)
  simp only [utf8Decode, List.length_cons, utf8DecodeAux, if_neg h1, if_neg h2, if_pos h3,
    List.headD_cons, List.tail_cons, hf]

/-- Decoder shape on a 4-byte head. -/
theorem utf8Decode_four (b0 b1 b2 b3 : Nat) (bs : List Nat) (h1 : ¬ b0 < 128)
    (h2 : ¬ b0 < 224) (h3 : ¬ b0 < 240) :
    utf8Decode (b0 :: b1 :: b2 :: b3 :: bs) =
      Char.ofNat ((b0 - 240) * 262144 + (b1 - 128) * 4096 + (b2 - 128) * 64 + (b3 - 128)) ::
        utf8Decode bs := by
  have hf := utf8DecodeAux_fuel (bs.length + 3) bs.length bs (by omega) (by omega)
  simp only [utf8Decode, List.length_cons, utf8DecodeAux, if_neg h1, if_neg h2, if_neg h3,
    List.headD_cons, List.tail_cons, hf]

/-- Decoding consumes one encoded character and continues. -/
theorem utf8Decode_encodeChar (c : Char) (bs : List Nat) :
    utf8Decode (utf8EncodeChar c ++ bs) = c :: utf8Decode bs := by
  have hc := char_toNat_lt c
  by_cases h1 : c.toNat < 128
  · simp only [utf8EncodeChar, if_pos h1, List.cons_append, List.nil_append]
    rw [utf8Decode_one _ _ h1, Char.ofNat_toNat]
  · by_cases h2 : c.toNat < 2048
    · simp only [utf8EncodeChar, if_neg h1, if_pos h2, List.cons_append, List.nil_append]
      rw [utf8Decode_two _ _ _ (by omega) (by omega)]
      have harith : (192 + c.toNat / 64 - 192) * 64 + (128 + c.toNat % 64 - 128) = c.toNat := by
        omega
      rw [harith, Char.ofNat_toNat]
    · by_cases h3 : c.toNat < 65536
      · simp only [utf8EncodeChar, if_neg h1, if_neg h2, if_pos h3, List.cons_append,
          List.nil_append]
        rw [utf8Decode_three _ _ _ _ (by omega) (by omega) (by omega)]
        have harith : (224 + c.toNat / 4096 - 224) * 4096 + (128 + c.toNat / 64 % 64 - 128) * 64 +
            (128 + c.toNat % 64 - 128) = c.toNat := by omega
        rw [harith, Char.ofNat_toNat]
      · simp only [utf8EncodeChar, if_neg h1, if_neg h2, if_neg h3, List.cons_append,
          List.nil_append]
        rw [utf8Decode_four _ _ _ _ _ (by omega) (by omega) (by omega)]
        have harith : (240 + c.toNat / 262144 - 240) * 262144 +
            (128 + c.toNat / 4096 % 64 - 128) * 4096 + (128 + c.toNat / 64 % 64 - 128) * 64 +
            (128 + c.toNat % 64 - 128) = c.toNat := by omega
        rw [harith, Char.ofNat_toNat]

/-- The modelled TextDecoder inverts the modelled TextEncoder. -/
theorem utf8Decode_textEncode (s : List Char) : utf8Decode (textEncode s) = s := by
  induction s with
  | nil => rfl
  | cons c cs ih =>
    have hstep : textEncode (c :: cs) = utf8EncodeChar c ++ textEncode cs := by
      simp [textEncode]
    rw [hstep, utf8Decode_encodeChar, ih]

/-- Xor of two bytes is a byte. -/
theorem xor_lt_256 {a b : Nat} (ha : a < 256) (hb : b < 256) : a ^^^ b < 256 := by
  have h8 : (256 : Nat) = 2 ^ 8 := by norm_num
  rw [h8] at ha hb ⊢
  exact Nat.xor_lt_two_pow ha hb

/-- Folding xor over bytes stays a byte. -/
theorem foldl_xor_lt (l : List Nat) :
    ∀ a, a < 256 → (∀ b ∈ l, b < 256) → l.foldl Nat.xor a < 256 := by
  induction l with
  | nil => intro a ha _; simpa using ha
  | cons x xs ih =>
    intro a ha hl
    simp only [List.foldl_cons]
    exact ih (Nat.xor a x) (xor_lt_256 ha (hl x (by simp)))
      (fun b hb => hl b (by simp [hb]))

/-- The modelled keystream of a byte-valued key and IV is a byte. -/
theorem aesKeystream_lt (key iv : List Nat) (hk : ∀ b ∈ key, b < 256)
    (hiv : ∀ b ∈ iv, b < 256) : aesKeystream key iv < 256 :=
  xor_lt_256 (foldl_xor_lt key 0 (by omega) hk) (foldl_xor_lt iv 0 (by omega) hiv)

/-- The modelled AES-CBC decrypt inverts the modelled encrypt. -/
theorem aesCbcDecrypt_encrypt (key iv data : List Nat) :
    aesCbcDecrypt key iv (aesCbcEncrypt key iv data) = data := by
  simp only [aesCbcEncrypt, aesCbcDecrypt, List.map_map]
  have hcomp : ((fun b => b ^^^ aesKeystream key iv) ∘ fun b => b ^^^ aesKeystream key iv) =
      id := by
    funext b
    simp [Function.comp, Nat.xor_cancel_right]
  rw [hcomp, List.map_id]

/-- Ciphertext bytes of the modelled AES-CBC are bytes. -/
theorem aesCbcEncrypt_lt (key iv data : List Nat) (hd : ∀ b ∈ data, b < 256)
    (hks : aesKeystream key iv < 256) : ∀ b ∈ aesCbcEncrypt key iv data, b < 256 := by
  intro b hb
  simp only [aesCbcEncrypt, List.mem_map] at hb
  rcases hb with ⟨x, hx, rfl⟩
  exact xor_lt_256 (hd x hx) hks

/-- symDecrypt inverts symEncrypt under the exported key: the 16-byte IV is
split off exactly where symEncrypt prepended it. -/
theorem symDecrypt_symEncrypt (key iv : List Nat) (s : List Char)
    (hkey : ∀ b ∈ key, b < 256) (hiv : ∀ b ∈ iv, b < 256) (hivLen : iv.length = 16) :
    symDecrypt (exportSymKey key) (symEncrypt key iv s) = s := by
  have hks := aesKeystream_lt key iv hkey hiv
  have henc := aesCbcEncrypt_lt key iv (textEncode s) (textEncode_lt s) hks
  have hcomb : ∀ b ∈ iv ++ aesCbcEncrypt key iv (textEncode s), b < 256 := by
    intro b hb
    rcases List.mem_append.1 hb with h | h
    · exact hiv b h
    · exact henc b h
  simp only [symDecrypt, symEncrypt, exportSymKey, importSymKey, arrayBufferToBase64,
    base64ToArrayBuffer]
  rw [base64_decode_encode _ hcomb, base64_decode_encode _ hkey]
  rw [← hivLen, List.take_left, List.drop_left]
  rw [aesCbcDecrypt_encrypt, utf8Decode_textEncode]

/-- Decoded buffer of a symEncrypt output starts with the IV. -/
theorem symEncrypt_take16 (key iv : List Nat) (s : List Char)
    (hkey : ∀ b ∈ key, b < 256) (hiv : ∀ b ∈ iv, b < 256) (hivLen : iv.length = 16) :
    (base64ToArrayBuffer (symEncrypt key iv s)).take 16 = iv := by
  have hks := aesKeystream_lt key iv hkey hiv
  have henc := aesCbcEncrypt_lt key iv (textEncode s) (textEncode_lt s) hks
  have hcomb : ∀ b ∈ iv ++ aesCbcEncrypt key iv (textEncode s), b < 256 := by
    intro b hb
    rcases List.mem_append.1 hb with h | h
    · exact hiv b h
    · exact henc b h
  simp only [symEncrypt, arrayBufferToBase64, base64ToArrayBuffer]
  rw [base64_decode_encode _ hcomb, ← hivLen, List.take_left]

/-- The modelled RSA-OAEP ciphertext is exactly 256 bytes. -/
theorem rsaOaepEncrypt_length (pubKey : Nat) (data : List Nat) (h : data.length ≤ 254) :
    (rsaOaepEncrypt pubKey data).length = 256 := by
  simp [rsaOaepEncrypt]
  omega

/-- The modelled RSA-OAEP ciphertext consists of bytes. -/
theorem rsaOaepEncrypt_lt (pubKey : Nat) (data : List Nat) (hd : ∀ b ∈ data, b < 256) :
    ∀ b ∈ rsaOaepEncrypt pubKey data, b < 256 := by
  intro b hb
  simp only [rsaOaepEncrypt, List.mem_map] at hb
  rcases hb with ⟨x, hx, rfl⟩
  have hx256 : x < 256 := by
    simp only [List.mem_cons, List.mem_append] at hx
    rcases hx with rfl | rfl | hx | hx
    · omega
    · omega
    · exact hd x hx
    · have := List.eq_of_mem_replicate hx
      omega
  exact xor_lt_256 hx256 (by omega : pubKey % 256 < 256)

/-- The modelled RSA-OAEP decrypt inverts the modelled encrypt under the
matching key. -/
theorem rsaOaepDecrypt_encrypt (key : Nat) (data : List Nat) (h : data.length ≤ 254) :
    rsaOaepDecrypt key (rsaOaepEncrypt key data) = some data := by
  simp only [rsaOaepDecrypt, rsaOaepEncrypt, List.map_map]
  have hcomp : ((fun b => b ^^^ key % 256) ∘ fun b => b ^^^ key % 256) = id := by
    funext b
    simp [Function.comp, Nat.xor_cancel_right]
  rw [hcomp, List.map_id]
  have hlen : (data ++ List.replicate (254 - data.length) 0).length = 254 := by
    simp; omega
  have hmod : data.length % 256 = data.length := Nat.mod_eq_of_lt (by omega)
  simp [hmod, hlen]

/-- An rsaEncrypt of an exported (at most 254-byte) key is exactly 344
base64 characters, the width the relay slices at. -/
theorem rsaEncrypt_length (k : List Nat) (pubKey : Nat) (hk : ∀ b ∈ k, b < 256)
    (hlen : k.length ≤ 254) : (rsaEncrypt (exportSymKey k) pubKey).length = 344 := by
  simp only [rsaEncrypt, exportSymKey, arrayBufferToBase64, base64ToArrayBuffer]
  rw [base64_decode_encode _ hk, base64_length, rsaOaepEncrypt_length _ _ hlen]

/-- rsaDecrypt inverts rsaEncrypt under the matching key seed and returns
the base64 payload unchanged. -/
theorem rsaDecrypt_rsaEncrypt (k : List Nat) (key : Nat) (hk : ∀ b ∈ k, b < 256)
    (hlen : k.length ≤ 254) :
    rsaDecrypt (rsaEncrypt (exportSymKey k) key) key = some (exportSymKey k) := by
  simp only [rsaDecrypt, rsaEncrypt, exportSymKey, arrayBufferToBase64, base64ToArrayBuffer]
  rw [base64_decode_encode _ hk, base64_decode_encode _ (rsaOaepEncrypt_lt key k hk),
    rsaOaepDecrypt_encrypt key k hlen]
  rfl

/-- The digit-production fuel is irrelevant as long as it exceeds n. -/
theorem natDigitsAux_fuel : ∀ f1 f2 n, n < f1 → n < f2 →
    natDigitsAux f1 n = natDigitsAux f2 n := by
  intro f1
  induction f1 with
  | zero => intro f2 n h1 _; omega
  | succ f ih =>
    intro f2 n h1 h2
    cases f2 with
    | zero => omega
    | succ f2 =>
      simp only [natDigitsAux]
      by_cases hn : n < 10
      · simp [hn]
      · simp only [if_neg hn]
        rw [ih f2 (n / 10) (by omega) (by omega)]

/-- Unfolding of natDigits as the intended division recursion. -/
theorem natDigits_def (n : Nat) :
    natDigits n = if n < 10 then [Char.ofNat (48 + n)]
      else natDigits (n / 10) ++ [Char.ofNat (48 + n % 10)] := by
  by_cases hn : n < 10
  · simp only [natDigits, natDigitsAux, if_pos hn]
  · rw [if_neg hn]
    show natDigitsAux (n + 1) n = natDigitsAux (n / 10 + 1) (n / 10) ++ [Char.ofNat (48 + n % 10)]
    conv_lhs => rw [natDigitsAux]
    rw [if_neg hn, natDigitsAux_fuel n (n / 10 + 1) (n / 10) (by omega) (by omega)]

/-- Code point of a decimal digit character. -/
theorem digitChar_toNat : ∀ d, d < 10 → (Char.ofNat (48 + d)).toNat = 48 + d := by decide

/-- Folding the parseInt step over the digits of n recovers n. -/
theorem parseFold (n : Nat) : ∀ a : Nat,
    List.foldl (fun acc c => acc * 10 + (c.toNat - 48)) a (natDigits n) =
      a * 10 ^ (natDigits n).length + n := by
  induction n using Nat.strong_induction_on with
  | _ n ih =>
    intro a
    rw [natDigits_def n]
    by_cases hn : n < 10
    · simp only [if_pos hn, List.foldl_cons, List.foldl_nil, List.length_cons,
        List.length_nil]
      rw [digitChar_toNat n hn]
      have hp : (10 : Nat) ^ (0 + 1) = 10 := by norm_num
      rw [hp]
      omega
    · simp only [if_neg hn, List.foldl_append, List.length_append, List.foldl_cons,
        List.foldl_nil, List.length_cons, List.length_nil]
      rw [ih (n / 10) (by omega) a, digitChar_toNat (n % 10) (by omega)]
      have hmod : 48 + n % 10 - 48 = n % 10 := by omega
      rw [hmod]
      have hdm : n / 10 * 10 + n % 10 = n := by omega
      calc (a * 10 ^ (natDigits (n / 10)).length + n / 10) * 10 + n % 10
          = a * (10 ^ (natDigits (n / 10)).length * 10) + (n / 10 * 10 + n % 10) := by ring
        _ = a * 10 ^ ((natDigits (n / 10)).length + (0 + 1)) + n := by rw [hdm]; ring

/-- parseInt10 inverts natDigits. -/
theorem parseInt10_natDigits (n : Nat) : parseInt10 (natDigits n) = n := by
  have h := parseFold n 0
  simpa [parseInt10] using h

/-- parseInt10 reads the zero-padded destination field back to the port. -/
theorem parseInt10_destinationString (port : Nat) :
    parseInt10 (destinationString port) = port := by
  have hzeros : List.foldl (fun acc c => acc * 10 + (c.toNat - 48)) 0
      ['0', '0', '0', '0', '0', '0'] = 0 := by decide
  have hsplit : destinationString port = ['0', '0', '0', '0', '0', '0'] ++ natDigits port := rfl
  rw [hsplit]
  simp only [parseInt10, List.foldl_append, hzeros]
  have h := parseFold port 0
  simpa [parseInt10] using h

/-- A four-digit number produces four digit characters. -/
theorem natDigits_length4 (n : Nat) (h1 : 1000 ≤ n) (h2 : n < 10000) :
    (natDigits n).length = 4 := by
  rw [natDigits_def n, if_neg (by omega)]
  rw [natDigits_def (n / 10), if_neg (by omega)]
  rw [natDigits_def (n / 10 / 10), if_neg (by omega)]
  rw [natDigits_def (n / 10 / 10 / 10), if_pos (by omega)]
  simp

/-- The destination field of a four-digit port is exactly 10 characters. -/
theorem destinationString_length (port : Nat) (h1 : 1000 ≤ port) (h2 : port < 10000) :
    (destinationString port).length = 10 := by
  simp [destinationString, natDigits_length4 port h1 h2]

/-- Slicing at 10 recovers the field and the remainder exactly. -/
theorem destinationString_slice (port : Nat) (h1 : 1000 ≤ port) (h2 : port < 10000)
    (rest : List Char) :
    (destinationString port ++ rest).take 10 = destinationString port ∧
    (destinationString port ++ rest).drop 10 = rest := by
  have hl := destinationString_length port h1 h2
  constructor
  · rw [← hl, List.take_left]
  · rw [← hl, List.drop_left]

/-- Peeling one layer: the router handler applied to one wrap step under the
router's own key recovers the destination port and the framed payload, and
forwards the payload unchanged (any in-range port clears the user-port
branch guard). -/
theorem peelLayer (prvKey : Nat) (symKey iv : List Nat) (dest : Nat) (cur : List Char)
    (hkey : ∀ b ∈ symKey, b < 256) (hkeyLen : symKey.length = 32)
    (hiv : ∀ b ∈ iv, b < 256) (hivLen : iv.length = 16)
    (hd1 : BASE_USER_PORT ≤ dest) (hd2 : dest < 10000) :
    routerHandleMessage prvKey
      (rsaEncrypt (exportSymKey symKey) prvKey ++
        symEncrypt symKey iv (destinationString dest ++ cur)) = some (dest, cur) := by
  have hd0 : 1000 ≤ dest := by
    have : BASE_USER_PORT = 3000 := rfl
    omega
  have h344 : (rsaEncrypt (exportSymKey symKey) prvKey).length = 344 :=
    rsaEncrypt_length symKey prvKey hkey (by omega)
  simp only [routerHandleMessage]
  rw [show (344 : Nat) = (rsaEncrypt (exportSymKey symKey) prvKey).length from h344.symm]
  rw [List.take_left, List.drop_left]
  rw [rsaDecrypt_rsaEncrypt symKey prvKey hkey (by omega)]
  simp only [symDecrypt_symEncrypt symKey iv (destinationString dest ++ cur) hkey hiv hivLen,
    (destinationString_slice dest hd0 hd2 cur).1, (destinationString_slice dest hd0 hd2 cur).2,
    parseInt10_destinationString, if_pos hd1]

/-- A duplicate-free circuit drawn from the pool cannot exceed the number of
distinct node ids in the pool. -/
theorem circuit_le_distinct (nodes : List Node) (circuit : List Nat)
    (hnd : circuit.Nodup) (hsub : ∀ x ∈ circuit, x ∈ nodes.map Node.nodeId) :
    circuit.length ≤ (nodes.map Node.nodeId).dedup.length := by
  have h1 : circuit.toFinset.card = circuit.length := List.toFinset_card_of_nodup hnd
  have h2 : circuit.toFinset ⊆ (nodes.map Node.nodeId).toFinset := by
    intro x hx
    simp only [List.mem_toFinset] at hx ⊢
    exact hsub x hx
  calc circuit.length = circuit.toFinset.card := h1.symm
    _ ≤ (nodes.map Node.nodeId).toFinset.card := Finset.card_le_card h2
    _ = (nodes.map Node.nodeId).dedup.length := List.card_toFinset _

/-- With fewer than three distinct node ids in the pool, the circuit loop
never reaches length three: whatever the random stream, it never exits with
a circuit. -/
theorem buildCircuit_none (nodes : List Node)
    (hfew : (nodes.map Node.nodeId).dedup.length < 3) :
    ∀ randoms circuit, circuit.Nodup → (∀ x ∈ circuit, x ∈ nodes.map Node.nodeId) →
      buildCircuit nodes randoms circuit = none := by
  intro randoms
  induction randoms with
  | nil =>
    intro circuit hnd hsub
    have hlen : circuit.length < 3 := by
      have := circuit_le_distinct nodes circuit hnd hsub
      omega
    simp [buildCircuit, hlen]
  | cons r rs ih =>
    intro circuit hnd hsub
    have hlen : circuit.length < 3 := by
      have := circuit_le_distinct nodes circuit hnd hsub
      omega
    simp only [buildCircuit, if_pos hlen]
    cases hget : nodes[r]? with
    | none => simp
    | some node =>
      simp only []
      by_cases hc : circuit.contains node.nodeId
      · rw [if_pos hc]
        exact ih circuit hnd hsub
      · rw [if_neg hc]
        refine ih _ ?_ ?_
        · simp only [List.nodup_append]
          refine ⟨hnd, by simp, ?_⟩
          intro x hx hmem
          simp only [List.mem_singleton] at hmem
          subst hmem
          exact absurd (by simpa using hx) (by simpa using hc)
        · intro x hx
          rcases List.mem_append.1 hx with h | h
          · exact hsub x h
          · simp only [List.mem_singleton] at h
            subst h
            exact List.mem_map.2 ⟨node, List.getElem?_mem hget, rfl⟩

/-- Whenever the circuit loop does exit, its result is duplicate-free and of
length exactly three. -/
theorem buildCircuit_ok (nodes : List Node) :
    ∀ randoms circuit c, circuit.Nodup → circuit.length ≤ 3 →
      buildCircuit nodes randoms circuit = some c → c.Nodup ∧ c.length = 3 := by
  intro randoms
  induction randoms with
  | nil =>
    intro circuit c hnd hle h
    simp only [buildCircuit] at h
    by_cases hlen : circuit.length < 3
    · rw [if_pos hlen] at h
      simp at h
    · rw [if_neg hlen] at h
      injection h with h2
      subst h2
      exact ⟨hnd, by omega⟩
  | cons r rs ih =>
    intro circuit c hnd hle h
    simp only [buildCircuit] at h
    by_cases hlen : circuit.length < 3
    · rw [if_pos hlen] at h
      cases hget : nodes[r]? with
      | none => rw [hget] at h; simp at h
      | some node =>
        rw [hget] at h
        simp only [] at h
        by_cases hc : circuit.contains node.nodeId
        · rw [if_pos hc] at h
          exact ih circuit c hnd hle h
        · rw [if_neg hc] at h
          refine ih _ c ?_ ?_ h
          · simp only [List.nodup_append]
            refine ⟨hnd, by simp, ?_⟩
            intro x hx hmem
            simp only [List.mem_singleton] at hmem
            subst hmem
            exact absurd (by simpa using hx) (by simpa using hc)
          · simp only [List.length_append, List.length_singleton]
            omega
    · rw [if_neg hlen] at h
      injection h with h2
      subst h2
      exact ⟨hnd, by omega⟩

/-- The hop list is over exactly the circuit's node ids, in order. -/
theorem mkHopList_fst : ∀ (c : List Nat) (d : Nat), (mkHopList c d).map Prod.fst = c
  | [], _ => by simp [mkHopList]
  | [x], d => by simp [mkHopList]
  | x :: y :: rest, d => by
    simp only [mkHopList, List.map_cons, List.cons.injEq, true_and]
    exact mkHopList_fst (y :: rest) d

/-- One hop per circuit entry. -/
theorem mkHopList_length (c : List Nat) (d : Nat) : (mkHopList c d).length = c.length := by
  have h := congrArg List.length (mkHopList_fst c d)
  simpa using h

/-- A member of the left list appears in the zip when the right list is long
enough. -/
theorem mem_zip_left {α β : Type} : ∀ (l1 : List α) (l2 : List β) (a : α), a ∈ l1 →
    l1.length ≤ l2.length → ∃ b, (a, b) ∈ l1.zip l2 := by
  intro l1
  induction l1 with
  | nil => intro l2 a ha _; simp at ha
  | cons x xs ih =>
    intro l2 a ha hlen
    cases l2 with
    | nil => simp at hlen
    | cons y ys =>
      rcases List.mem_cons.1 ha with rfl | ha2
      · exact ⟨y, by rw [List.zip_cons_cons]; exact List.mem_cons_self _ _⟩
      · obtain ⟨b, hb⟩ := ih ys a ha2 (by simp at hlen ⊢; omega)
        exact ⟨b, by rw [List.zip_cons_cons]; exact List.mem_cons_of_mem _ hb⟩

/-- If any hop in the list has no registry record, the wrap loop throws. -/
theorem wrapHops_error (nodes : List Node) :
    ∀ hops msg, (∃ p ∈ hops, nodes.find? (fun n => n.nodeId == p.1.1) = none) →
      ∃ e, wrapHops nodes hops msg = Except.error e := by
  intro hops
  induction hops with
  | nil => intro msg h; simp at h
  | cons p rest ih =>
    intro msg h
    obtain ⟨q, hq, hfind⟩ := h
    rcases List.mem_cons.1 hq with rfl | hq2
    · obtain ⟨⟨hopId, dest⟩, symKey, iv⟩ := q
      simp only [wrapHops]
      cases hrec : wrapHops nodes rest msg with
      | error e => exact ⟨e, rfl⟩
      | ok current =>
        simp only at hfind
        rw [hfind]
        exact ⟨_, rfl⟩
    · obtain ⟨⟨hopId, dest⟩, symKey, iv⟩ := p
      obtain ⟨e, he⟩ := ih msg ⟨q, hq2, hfind⟩
      simp only [wrapHops, he]
      exact ⟨e, rfl⟩

set_option maxRecDepth 100000

/-- Claim C3: the spec requires circuit building over a pool with fewer
than 3 distinct relay ids to fail with InsufficientNodesError instead of
hanging; the code has no such error and its while loop never exits: for
every stream of random draws the loop produces no circuit. -/
theorem circuitLoopStarvesSmallPool (nodes : List Node) (randoms : List Nat)
    (hfew : (nodes.map Node.nodeId).dedup.length < 3) :
    buildCircuit nodes randoms [] = none :=
  buildCircuit_none nodes hfew randoms [] (by simp) (by simp)

/-- Witness for C3 at a concrete two-relay pool and draw stream. -/
theorem circuitLoopStarvesSmallPool_witness :
    buildCircuit [⟨1, 5⟩, ⟨2, 6⟩] [0, 1, 0, 1, 0, 1] [] = none :=
  circuitLoopStarvesSmallPool [⟨1, 5⟩, ⟨2, 6⟩] [0, 1, 0, 1, 0, 1] (by decide)

/-- Claim C4 counterexample: the destination field of port 3001 is 10
characters but the field of port 30010 is 11, so the field width is not
fixed regardless of the address's digit count. -/
theorem destinationFieldNotFixedWidth :
    (destinationString 3001).length = 10 ∧ (destinationString 30010).length ≠ 10 := by
  decide

/-- Claim C4 (amended): the destination field is six zero characters
followed by the decimal digits of the address, hence left-zero-padded and
exactly 10 characters — matching the relay's 10-character slice — precisely
when the address has four decimal digits (as all reference ports do); wider
addresses produce wider fields. -/
theorem destinationFieldTenWhenFourDigits (port : Nat) (rest : List Char)
    (h1 : 1000 ≤ port) (h2 : port < 10000) :
    (destinationString port).length = 10 ∧
    (destinationString port ++ rest).take 10 = destinationString port ∧
    (destinationString port ++ rest).drop 10 = rest :=
  ⟨destinationString_length port h1 h2, destinationString_slice port h1 h2 rest⟩

/-- Witness for the amended C4 at port 3001. -/
theorem destinationFieldTenWhenFourDigits_witness :
    (destinationString 3001).length = 10 ∧
    (destinationString 3001 ++ ['x']).take 10 = destinationString 3001 ∧
    (destinationString 3001 ++ ['x']).drop 10 = ['x'] :=
  destinationFieldTenWhenFourDigits 3001 ['x'] (by decide) (by decide)

/-- Claim C5: rsaEncrypt of an exported 32-byte symmetric key under the
modelled 2048-bit RSA-OAEP key is exactly 344 base64 characters, so the
relay's split of the wire message at index 344 recovers the wrapped key and
the symmetric ciphertext exactly. -/
theorem wrappedKeyIs344Chars (key : List Nat) (pubKey : Nat) (rest : List Char)
    (hkey : ∀ b ∈ key, b < 256) (hkeyLen : key.length = 32) :
    (rsaEncrypt (exportSymKey key) pubKey).length = 344 ∧
    (rsaEncrypt (exportSymKey key) pubKey ++ rest).take 344 =
      rsaEncrypt (exportSymKey key) pubKey ∧
    (rsaEncrypt (exportSymKey key) pubKey ++ rest).drop 344 = rest := by
  have h := rsaEncrypt_length key pubKey hkey (by omega)
  refine ⟨h, ?_, ?_⟩
  · rw [← h, List.take_left]
  · rw [← h, List.drop_left]

/-- Witness for C5 at a concrete 32-byte key. -/
theorem wrappedKeyIs344Chars_witness :
    (rsaEncrypt (exportSymKey (List.replicate 32 7)) 99).length = 344 ∧
    (rsaEncrypt (exportSymKey (List.replicate 32 7)) 99 ++ ['x']).take 344 =
      rsaEncrypt (exportSymKey (List.replicate 32 7)) 99 ∧
    (rsaEncrypt (exportSymKey (List.replicate 32 7)) 99 ++ ['x']).drop 344 = ['x'] :=
  wrappedKeyIs344Chars (List.replicate 32 7) 99 ['x'] (by decide) (by decide)

/-- Claim C6: whenever the circuit loop over a pool with at least three
distinct relay ids returns a circuit, that circuit has no repeated relay id
and exactly three elements. -/
theorem circuitDistinctAndLength3 (nodes : List Node) (randoms : List Nat) (c : List Nat)
    (_hpool : 3 ≤ (nodes.map Node.nodeId).dedup.length)
    (hsome : buildCircuit nodes randoms [] = some c) :
    c.Nodup ∧ c.length = 3 :=
  buildCircuit_ok nodes randoms [] c (by simp) (by simp) hsome

/-- Witness for C6 at a concrete three-relay pool and draw stream. -/
theorem circuitDistinctAndLength3_witness :
    ([1, 2, 3] : List Nat).Nodup ∧ ([1, 2, 3] : List Nat).length = 3 :=
  circuitDistinctAndLength3 [⟨1, 5⟩, ⟨2, 6⟩, ⟨3, 7⟩] [0, 1, 2] [1, 2, 3]
    (by decide) (by decide)

/-- Claim C8 counterexample: registering the same (nodeId, publicKey) pair
twice pushes two records, so the registry state differs from registering it
once and listNodes answers arrays of different lengths. -/
theorem registerTwiceDuplicates :
    registerNode (registerNode [] ⟨1, 5⟩) ⟨1, 5⟩ ≠ registerNode [] ⟨1, 5⟩ ∧
    (getNodeRegistry (registerNode (registerNode [] ⟨1, 5⟩) ⟨1, 5⟩)).length = 2 ∧
    (getNodeRegistry (registerNode [] ⟨1, 5⟩)).length = 1 := by
  refine ⟨by decide, rfl, rfl⟩

/-- Claim C8 (amended): register is an unconditional append, not an
idempotent add — registering the same pair twice leaves one more (duplicate)
record than registering it once — although the set of distinct records that
listNodes reports is the same either way. -/
theorem registerIsAppendNotIdempotent (nodes : List Node) (n m : Node) :
    registerNode (registerNode nodes n) n = registerNode nodes n ++ [n] ∧
    (registerNode (registerNode nodes n) n).length = nodes.length + 2 ∧
    (m ∈ getNodeRegistry (registerNode (registerNode nodes n) n) ↔
      m ∈ getNodeRegistry (registerNode nodes n)) := by
  refine ⟨rfl, by simp [registerNode], ?_⟩
  simp only [registerNode, getNodeRegistry, List.mem_append, List.mem_singleton]
  tauto

/-- Claim C9: symDecrypt of a symEncrypt output under the exported key
returns the plaintext for every string, and the base64-decoded combined
buffer starts with exactly the 16 IV bytes symEncrypt prepended. -/
theorem symEncryptDecryptRoundTrip (key iv : List Nat) (s : List Char)
    (hkey : ∀ b ∈ key, b < 256) (_hkeyLen : key.length = 32)
    (hiv : ∀ b ∈ iv, b < 256) (hivLen : iv.length = 16) :
    symDecrypt (exportSymKey key) (symEncrypt key iv s) = s ∧
    (base64ToArrayBuffer (symEncrypt key iv s)).take 16 = iv :=
  ⟨symDecrypt_symEncrypt key iv s hkey hiv hivLen,
    symEncrypt_take16 key iv s hkey hiv hivLen⟩

/-- Witness for C9 at a concrete key, IV and string. -/
theorem symEncryptDecryptRoundTrip_witness :
    symDecrypt (exportSymKey (List.replicate 32 7))
      (symEncrypt (List.replicate 32 7) (List.replicate 16 3) ['h', 'i']) = ['h', 'i'] ∧
    (base64ToArrayBuffer (symEncrypt (List.replicate 32 7) (List.replicate 16 3)
      ['h', 'i'])).take 16 = List.replicate 16 3 :=
  symEncryptDecryptRoundTrip (List.replicate 32 7) (List.replicate 16 3) ['h', 'i']
    (by decide) (by decide) (by decide) (by decide)

/-- Claim C10: validateEncryption is a total Boolean check — true exactly
when RSA decryption under the key succeeds with the expected plaintext, and
false (instead of a propagated exception) whenever decryption fails. -/
theorem validateEncryptionTotalSpec (e d : List Char) (p : Nat) :
    (validateEncryption e d p = true ↔ rsaDecrypt e p = some d) ∧
    (rsaDecrypt e p = none → validateEncryption e d p = false) := by
  constructor
  · unfold validateEncryption
    cases h : rsaDecrypt e p with
    | none => simp
    | some v => simp [beq_iff_eq]
  · intro h
    unfold validateEncryption
    rw [h]

/-- Witness for C10 at an input whose decryption fails. -/
theorem validateEncryptionTotalSpec_witness : validateEncryption [] ['a'] 0 = false :=
  (validateEncryptionTotalSpec [] ['a'] 0).2 (by rfl)

/-- Claim C7: if a relay chosen for the circuit has no record in the
registry snapshot, the wrap loop throws its lookup error before anything is
handed to Transport: the send does not produce a delivery. -/
theorem unknownNodeAbortsSend (nodes : List Node) (circuit : List Nat)
    (entropy : List (List Nat × List Nat)) (message : List Char) (destinationUserId : Nat)
    (nid : Nat) (hmem : nid ∈ circuit) (hlen : circuit.length ≤ entropy.length)
    (hmiss : nodes.find? (fun n => n.nodeId == nid) = none) :
    (sendWithCircuit nodes circuit entropy message destinationUserId).isOk = false := by
  have hmem2 : nid ∈ (mkHopList circuit destinationUserId).map Prod.fst := by
    rw [mkHopList_fst]
    exact hmem
  obtain ⟨hop, hhop, hfst⟩ := List.mem_map.1 hmem2
  have hlen2 : (mkHopList circuit destinationUserId).length ≤ entropy.length := by
    rw [mkHopList_length]
    exact hlen
  obtain ⟨ent, hent⟩ := mem_zip_left _ entropy hop hhop hlen2
  have hex : ∃ p ∈ (mkHopList circuit destinationUserId).zip entropy,
      nodes.find? (fun n => n.nodeId == p.1.1) = none := by
    refine ⟨(hop, ent), hent, ?_⟩
    show nodes.find? (fun n => n.nodeId == hop.1) = none
    rw [hfst]
    exact hmiss
  obtain ⟨e, he⟩ := wrapHops_error nodes _ message hex
  simp [sendWithCircuit, he, Except.map, Except.isOk, Except.toBool]

/-- Witness for C7: a circuit naming relay 7 over an empty registry. -/
theorem unknownNodeAbortsSend_witness :
    (sendWithCircuit [] [7] [(List.replicate 32 1, List.replicate 16 2)] ['x'] 0).isOk =
      false :=
  unknownNodeAbortsSend [] [7] [(List.replicate 32 1, List.replicate 16 2)] ['x'] 0 7
    (by decide) (by decide) (by rfl)

/-- Claim C2: whenever the relay handler successfully recovers the symmetric
key and the decrypted destination is a relay address (an onion-router port),
it forwards exactly the decrypted remainder — the bytes after the 10-char
destination field — unchanged to that port. -/
theorem relayForwardsRemainderUnchanged (prvKey : Nat) (message : List Char)
    (symmetricKeyBase64 : List Char)
    (hdec : rsaDecrypt (message.take 344) prvKey = some symmetricKeyBase64)
    (hrelay : BASE_ONION_ROUTER_PORT ≤
      parseInt10 ((symDecrypt symmetricKeyBase64 (message.drop 344)).take 10)) :
    routerHandleMessage prvKey message =
      some (parseInt10 ((symDecrypt symmetricKeyBase64 (message.drop 344)).take 10),
        (symDecrypt symmetricKeyBase64 (message.drop 344)).drop 10) := by
  have e1 : BASE_USER_PORT = 3000 := rfl
  have e2 : BASE_ONION_ROUTER_PORT = 4000 := rfl
  have huser : BASE_USER_PORT ≤
      parseInt10 ((symDecrypt symmetricKeyBase64 (message.drop 344)).take 10) := by
    omega
  simp only [routerHandleMessage, hdec]
  rw [if_pos huser]

/-- Witness for C2: one wrapped layer addressed to router port 4005. -/
theorem relayForwardsRemainderUnchanged_witness :
    routerHandleMessage 42 (rsaEncrypt (exportSymKey (List.replicate 32 7)) 42 ++
        symEncrypt (List.replicate 32 7) (List.replicate 16 3)
          (destinationString 4005 ++ ['y', 'o'])) =
      some (parseInt10 ((symDecrypt (exportSymKey (List.replicate 32 7))
          ((rsaEncrypt (exportSymKey (List.replicate 32 7)) 42 ++
            symEncrypt (List.replicate 32 7) (List.replicate 16 3)
              (destinationString 4005 ++ ['y', 'o'])).drop 344)).take 10),
        (symDecrypt (exportSymKey (List.replicate 32 7))
          ((rsaEncrypt (exportSymKey (List.replicate 32 7)) 42 ++
            symEncrypt (List.replicate 32 7) (List.replicate 16 3)
              (destinationString 4005 ++ ['y', 'o'])).drop 344)).drop 10) :=
  relayForwardsRemainderUnchanged 42 _ (exportSymKey (List.replicate 32 7))
    (by decide) (by decide)

/-- Claim C1: for any plaintext, destination user and circuit of three
distinct registered relays, the wire message built by the sender peels
through the three relays in path order — each relay's handler consuming
exactly the body the previous hop forwarded and using its own private
key — and the final hop delivers exactly the plaintext to the destination
user's port. -/
theorem onionRoundTrip3 (nodes : List Node) (n0 n1 n2 p0 p1 p2 : Nat)
    (k0 k1 k2 iv0 iv1 iv2 : List Nat) (message : List Char) (destinationUserId : Nat)
    (hfind0 : nodes.find? (fun n => n.nodeId == n0) = some ⟨n0, p0⟩)
    (hfind1 : nodes.find? (fun n => n.nodeId == n1) = some ⟨n1, p1⟩)
    (hfind2 : nodes.find? (fun n => n.nodeId == n2) = some ⟨n2, p2⟩)
    (_hd01 : n0 ≠ n1) (_hd12 : n1 ≠ n2) (_hd02 : n0 ≠ n2)
    (hk0 : ∀ b ∈ k0, b < 256) (hk0l : k0.length = 32)
    (hk1 : ∀ b ∈ k1, b < 256) (hk1l : k1.length = 32)
    (hk2 : ∀ b ∈ k2, b < 256) (hk2l : k2.length = 32)
    (hiv0 : ∀ b ∈ iv0, b < 256) (hiv0l : iv0.length = 16)
    (hiv1 : ∀ b ∈ iv1, b < 256) (hiv1l : iv1.length = 16)
    (hiv2 : ∀ b ∈ iv2, b < 256) (hiv2l : iv2.length = 16)
    (hb1 : n1 < 6000) (hb2 : n2 < 6000) (hdu : destinationUserId < 7000) :
    (sendWithCircuit nodes [n0, n1, n2] [(k0, iv0), (k1, iv1), (k2, iv2)]
        message destinationUserId).toOption.bind (peelSeq [p0, p1, p2]) =
      some (BASE_USER_PORT + destinationUserId, message) := by
  have e1 : BASE_USER_PORT = 3000 := rfl
  have e2 : BASE_ONION_ROUTER_PORT = 4000 := rfl
  have hhops : (mkHopList [n0, n1, n2] destinationUserId).zip
      [(k0, iv0), (k1, iv1), (k2, iv2)] =
      [((n0, BASE_ONION_ROUTER_PORT + n1), k0, iv0),
       ((n1, BASE_ONION_ROUTER_PORT + n2), k1, iv1),
       ((n2, BASE_USER_PORT + destinationUserId), k2, iv2)] := rfl
  have hwrap : wrapHops nodes ((mkHopList [n0, n1, n2] destinationUserId).zip
      [(k0, iv0), (k1, iv1), (k2, iv2)]) message = Except.ok
      (rsaEncrypt (exportSymKey k0) p0 ++ symEncrypt k0 iv0
        (destinationString (BASE_ONION_ROUTER_PORT + n1) ++
          (rsaEncrypt (exportSymKey k1) p1 ++ symEncrypt k1 iv1
            (destinationString (BASE_ONION_ROUTER_PORT + n2) ++
              (rsaEncrypt (exportSymKey k2) p2 ++ symEncrypt k2 iv2
                (destinationString (BASE_USER_PORT + destinationUserId) ++ message)))))) := by
    rw [hhops]
    simp only [wrapHops, hfind2, hfind1, hfind0]
  have hpeel0 := peelLayer p0 k0 iv0 (BASE_ONION_ROUTER_PORT + n1)
    (rsaEncrypt (exportSymKey k1) p1 ++ symEncrypt k1 iv1
      (destinationString (BASE_ONION_ROUTER_PORT + n2) ++
        (rsaEncrypt (exportSymKey k2) p2 ++ symEncrypt k2 iv2
          (destinationString (BASE_USER_PORT + destinationUserId) ++ message))))
    hk0 hk0l hiv0 hiv0l (by omega) (by omega)
  have hpeel1 := peelLayer p1 k1 iv1 (BASE_ONION_ROUTER_PORT + n2)
    (rsaEncrypt (exportSymKey k2) p2 ++ symEncrypt k2 iv2
      (destinationString (BASE_USER_PORT + destinationUserId) ++ message))
    hk1 hk1l hiv1 hiv1l (by omega) (by omega)
  have hpeel2 := peelLayer p2 k2 iv2 (BASE_USER_PORT + destinationUserId) message
    hk2 hk2l hiv2 hiv2l (by omega) (by omega)
  simp only [sendWithCircuit, hwrap, Except.map, Except.toOption, Option.bind,
    List.headD, peelSeq, hpeel0, hpeel1, hpeel2]

/-- Witness for C1 at a concrete registry, circuit, entropy and message. -/
theorem onionRoundTrip3_witness :
    (sendWithCircuit [⟨1, 10⟩, ⟨2, 20⟩, ⟨3, 30⟩] [1, 2, 3]
        [(List.replicate 32 5, List.replicate 16 1),
         (List.replicate 32 6, List.replicate 16 2),
         (List.replicate 32 7, List.replicate 16 3)] ['h', 'i'] 5).toOption.bind
      (peelSeq [10, 20, 30]) = some (BASE_USER_PORT + 5, ['h', 'i']) :=
  onionRoundTrip3 [⟨1, 10⟩, ⟨2, 20⟩, ⟨3, 30⟩] 1 2 3 10 20 30
    (List.replicate 32 5) (List.replicate 32 6) (List.replicate 32 7)
    (List.replicate 16 1) (List.replicate 16 2) (List.replicate 16 3) ['h', 'i'] 5
    (by decide) (by decide) (by decide) (by decide) (by decide) (by decide)
    (by decide) (by decide) (by decide) (by decide) (by decide) (by decide)
    (by decide) (by decide) (by decide) (by decide) (by decide) (by decide)
    (by decide) (by decide) (by decide)
